import Mathlib

/-!
Verification of the RocksDB-backed storage adapter of `rocksreth`
(`crates/storage/db-rocks`), as a shallow embedding of the byte-level
behaviour of its transactions, cursors, dup-sort helper and trie helper.

Keys and values are byte strings (`List Nat`, each byte `< 256` where it
matters).  A column family of the engine is a list of key/value entries
that the engine keeps strictly sorted by bytewise lexicographic order;
the whole engine is an association list from column-family ids to such
tables.  Each definition is translated from the corresponding Rust item
in `src/crates/storage/db-rocks/src`, noted next to the definition.
-/

namespace RocksReth

/-- Byte strings: keys and values at the engine level. -/
abbrev Bytes := List Nat

/-- Strict bytewise lexicographic order, the comparator RocksDB applies to
keys of a column family. -/
def keyLt : Bytes → Bytes → Bool
  | [], [] => false
  | [], _ :: _ => true
  | _ :: _, [] => false
  | a :: as, b :: bs =>
    if a < b then true else if b < a then false else keyLt as bs

/-- Non-strict bytewise lexicographic order. -/
def keyLe (a b : Bytes) : Bool := !keyLt b a

/-- One entry of a column family: raw key bytes and raw value bytes. -/
abbrev Entry := Bytes × Bytes

/-- A column family snapshot: its entries in the engine's iteration order. -/
abbrev Tbl := List Entry

/-- The engine invariant on a column family: entries strictly ascending in
key order, checked entry by adjacent entry. -/
def tblSorted : Tbl → Bool
  | [] => true
  | [_] => true
  | a :: b :: t => keyLt a.1 b.1 && tblSorted (b :: t)

/-- Engine point lookup inside one column family (`DB::get_cf`). -/
def lookupTbl : Tbl → Bytes → Option Bytes
  | [], _ => none
  | e :: t, k => if e.1 = k then some e.2 else lookupTbl t k

/-!
Read cursor over one column family
(`implementation/rocks/cursor.rs`, `RocksCursor<T, WRITE>`).

The Rust cursor keeps only `current_item : Option<(key, value)>`; every
operation opens a fresh engine iterator.  `IteratorMode::From(k, Forward)`
positions the iterator at the first stored key `≥ k`, which on the sorted
column family is `dropWhile (key < k)`; `IteratorMode::From(k, Reverse)`
positions it at the last stored key `≤ k` and iterates backwards, which is
`(takeWhile (key ≤ k)).reverse`.  The model works below the key codec: a
cursor state is the raw `current_item`.
-/

/-- Engine iterator seek: first entry whose key is `≥ k`
(`IteratorMode::From(k, Direction::Forward)` followed by one `next`). -/
def seekGE (t : Tbl) (k : Bytes) : Option Entry :=
  (t.dropWhile (fun e => keyLt e.1 k)).head?

/-- `RocksCursor::reset_to_first` alias `first`: output and new position. -/
def cFirst (t : Tbl) : Option Entry := t.head?

/-- `RocksCursor::reset_to_last` alias `last`: output and new position. -/
def cLast (t : Tbl) : Option Entry := t.getLast?

/-- `RocksCursor::seek`: `reset_to_key(encode k, Forward)`; output and new
position coincide. -/
def cSeek (t : Tbl) (k : Bytes) : Option Entry := seekGE t k

/-- `RocksCursor::seek_exact`: runs `reset_to_key(encode k, Forward)` (which
already overwrites `current_item` with whatever entry was found), then
returns the entry only if its key equals `k`.  First component: returned
output; second component: the cursor position after the call. -/
def cSeekExact (t : Tbl) (k : Bytes) : Option Entry × Option Entry :=
  let r := seekGE t k
  (match r with
   | some e => if e.1 = k then some e else none
   | none => none,
   r)

/-- `RocksCursor::move_to_next`: when positioned, open an iterator at the
current key going forward, skip one element, return the next; when
unpositioned, behave as `first`. -/
def cNext (t : Tbl) (st : Option Entry) : Option Entry :=
  match st with
  | none => t.head?
  | some e => ((t.dropWhile (fun f => keyLt f.1 e.1)).drop 1).head?

/-- `RocksCursor::move_to_prev`: when positioned, open a reverse iterator at
the current key, skip one element, return the next; when unpositioned,
behave as `last`. -/
def cPrev (t : Tbl) (st : Option Entry) : Option Entry :=
  match st with
  | none => t.getLast?
  | some e => ((t.takeWhile (fun f => !keyLt e.1 f.1)).reverse.drop 1).head?

/-- `RocksCursor::new`: construction immediately runs `reset_to_first`, so a
fresh cursor is already positioned at the table's first entry. -/
def cursorNew (t : Tbl) : Option Entry := t.head?

/-- Cursor position after `first` followed by `i` calls to `next` (output
and position coincide for these operations). -/
def forwardTrace (t : Tbl) : Nat → Option Entry
  | 0 => cFirst t
  | i + 1 => cNext t (forwardTrace t i)

/-- Cursor position after `last` followed by `i` calls to `prev`. -/
def backwardTrace (t : Tbl) : Nat → Option Entry
  | 0 => cLast t
  | i + 1 => cPrev t (backwardTrace t i)

/-!
Engine, write batch and transactions
(`implementation/rocks/tx.rs`, `RocksTransaction<WRITE>`).

The engine is RocksDB: an association list from column-family ids to
sorted tables.  A write transaction owns a `WriteBatch`: a queue of
operations that touches the engine only at `commit`, which applies the
queued operations in order.  Reads (`get`, `entries`, every cursor read)
always go to the engine directly.
-/

/-- The whole engine: column-family id to column-family snapshot. -/
abbrev Engine := List (Nat × Tbl)

/-- The table currently stored under a column family (absent id reads as
an empty column family, matching a freshly created one). -/
def engTbl : Engine → Nat → Tbl
  | [], _ => []
  | (c, t) :: r, cf => if c = cf then t else engTbl r cf

/-- Replace the table stored under a column family. -/
def engSet : Engine → Nat → Tbl → Engine
  | [], cf, t => [(cf, t)]
  | (c, u) :: r, cf, t => if c = cf then (cf, t) :: r else (c, u) :: engSet r cf t

/-- Sorted insert-or-replace of one entry, the effect of `DB::put_cf` on a
column family. -/
def insertEntry : Tbl → Bytes → Bytes → Tbl
  | [], k, v => [(k, v)]
  | e :: t, k, v =>
    if keyLt k e.1 then (k, v) :: e :: t
    else if k = e.1 then (k, v) :: t
    else e :: insertEntry t k v

/-- The effect of `DB::delete_cf` on a column family. -/
def deleteKey (t : Tbl) (k : Bytes) : Tbl :=
  t.filter (fun e => !decide (e.1 = k))

/-- The effect of `WriteBatch::delete_range_cf` on a column family: remove
every key `x` with `s ≤ x < e` (the RocksDB range is end-exclusive). -/
def deleteRangeTbl (t : Tbl) (s e : Bytes) : Tbl :=
  t.filter (fun f => !(keyLe s f.1 && keyLt f.1 e))

/-- `DB::put_cf` at the engine level. -/
def engPut (eng : Engine) (cf : Nat) (k v : Bytes) : Engine :=
  engSet eng cf (insertEntry (engTbl eng cf) k v)

/-- `DB::delete_cf` at the engine level. -/
def engDel (eng : Engine) (cf : Nat) (k : Bytes) : Engine :=
  engSet eng cf (deleteKey (engTbl eng cf) k)

/-- One queued operation of a `rocksdb::WriteBatch`. -/
inductive BatchOp
  | putOp (cf : Nat) (k v : Bytes)
  | delOp (cf : Nat) (k : Bytes)
  | delRangeOp (cf : Nat) (s e : Bytes)
deriving DecidableEq

/-- A write transaction's accumulated batch, in insertion order. -/
abbrev Batch := List BatchOp

/-- Applying one queued operation to the engine. -/
def applyOp (eng : Engine) : BatchOp → Engine
  | .putOp cf k v => engPut eng cf k v
  | .delOp cf k => engDel eng cf k
  | .delRangeOp cf s e => engSet eng cf (deleteRangeTbl (engTbl eng cf) s e)

/-- `RocksTransaction::commit`: atomically apply the accumulated batch to
the engine, in insertion order (`DB::write_opt`). -/
def txCommit (eng : Engine) (b : Batch) : Engine :=
  b.foldl applyOp eng

/-- `RocksTransaction::get` (modulo codecs): a point read against the
engine.  The batch is write-only; reads never consult it. -/
def txGet (eng : Engine) (cf : Nat) (k : Bytes) : Option Bytes :=
  lookupTbl (engTbl eng cf) k

/-- `DbTxMut::put`: encode/compress and append a put to the batch; the
engine is untouched until commit. -/
def txPut (b : Batch) (cf : Nat) (k v : Bytes) : Batch :=
  b ++ [.putOp cf k v]

/-- The fixed end key of `clear`: `vec![255u8; 32]`. -/
def clearEndKey : Bytes := List.replicate 32 255

/-- `DbTxMut::clear`: append one `delete_range_cf` from `vec![0u8]` to
`vec![255u8; 32]` to the batch. -/
def txClear (b : Batch) (cf : Nat) : Batch :=
  b ++ [.delRangeOp cf [0] clearEndKey]

/-- `DbTx::entries`: count the entries of a column family by iterating the
engine; staged batch writes are invisible to it. -/
def txEntries (eng : Engine) (cf : Nat) : Nat :=
  (engTbl eng cf).length

/-!
Write-cursor operations
(`implementation/rocks/cursor.rs`, `impl DbCursorRW for RocksCursor<T, true>`).

These call `DB::put_cf` / `DB::delete_cf` on the shared engine handle
directly; the transaction's batch is not involved.
-/

/-- A write cursor's possible failures, after `errors.rs` and the
`reth_db_api::DatabaseError` variants this crate constructs. -/
inductive DatabaseError
  | Other (msg : String)
  | Decode
  | KeyExists
deriving DecidableEq

/-- `DbCursorRW::upsert`: an immediate `DB::put_cf` on the engine. -/
def cursorUpsert (eng : Engine) (cf : Nat) (k v : Bytes) : Engine :=
  engPut eng cf k v

/-- `DbCursorRW::append`: delegates to `upsert`. -/
def cursorAppend (eng : Engine) (cf : Nat) (k v : Bytes) : Engine :=
  cursorUpsert eng cf k v

/-- `DbCursorRW::insert`: `seek_exact` against the engine; when the key is
found, fail with the error the source constructs; otherwise `upsert`.
Returns the operation outcome together with the engine afterwards. -/
def cursorInsertOp (eng : Engine) (cf : Nat) (k v : Bytes) :
    Except DatabaseError Unit × Engine :=
  match (cSeekExact (engTbl eng cf) k).1 with
  | some _ => (.error (.Other "Key already exists"), eng)
  | none => (.ok (), cursorUpsert eng cf k v)

/-- `DbCursorRW::delete_current`: when positioned, an immediate
`DB::delete_cf` of the current key on the engine (the cursor then steps
forward, which does not change the engine). -/
def cursorDeleteCurrent (eng : Engine) (cf : Nat) (st : Option Entry) : Engine :=
  match st with
  | some e => engDel eng cf e.1
  | none => eng

/-!
Dup-sort helper (`implementation/rocks/dupsort.rs`, `DupSortHelper`).

Generic over the table's key and sub-key codecs, as the Rust helper is
generic over `T: DupSort`.
-/

/-- Position of the first delimiter byte `0xFF`
(`composite.iter().position(|&b| b == DELIMITER)`). -/
def findDelim : Bytes → Option Nat
  | [] => none
  | b :: r => if b = 255 then some 0 else (findDelim r).map (· + 1)

/-- `DupSortHelper::create_composite_key`: `encode(key) ∥ 0xFF ∥ encode(subkey)`
(the Rust function wraps this in an always-`Ok` `Result`). -/
def createCompositeKey {K S : Type} (encodeK : K → Bytes) (encodeS : S → Bytes)
    (k : K) (s : S) : Bytes :=
  encodeK k ++ 255 :: encodeS s

/-- `DupSortHelper::split_composite_key`: split at the first `0xFF`, decode
the part before it as the key and the part after it as the sub-key;
`DatabaseError::Decode` when no delimiter occurs. -/
def splitCompositeKey {K S : Type} (decodeK : Bytes → Except DatabaseError K)
    (decodeS : Bytes → Except DatabaseError S) (c : Bytes) :
    Except DatabaseError (K × S) :=
  match findDelim c with
  | none => .error .Decode
  | some i =>
    match decodeK (c.take i), decodeS (c.drop (i + 1)) with
    | .ok k, .ok s => .ok (k, s)
    | .error e, _ => .error e
    | .ok _, .error e => .error e

/-!
`TrieNibbles` key codec (`tables/trie.rs`).

A nibble path is modelled as its list of nibble values.  `encode` is
`Vec::<u8>::from(nibbles)`, which lays out one nibble per byte, so at the
byte level it is the identity on the value list; `decode` rejects any byte
above `0xf` and otherwise rebuilds the same list.
-/

/-- `impl Encode for TrieNibbles`: one nibble per byte. -/
def trieNibblesEncode (n : Bytes) : Bytes := n

/-- `impl Decode for TrieNibbles`: error when any byte exceeds `0xf`,
otherwise `Nibbles::from_nibbles(bytes)`. -/
def trieNibblesDecode (b : Bytes) : Except DatabaseError Bytes :=
  if b.any (fun x => decide (15 < x)) then .error .Decode else .ok b

/-!
Typed table codec layer (`reth_db_api` `Encode`/`Compress` as used by
`RocksTransaction::put` and `RocksTransaction::get`).
-/

/-- The codec a registered table supplies: key encoding and value
compression / decompression. -/
structure TableCodec (K V : Type) where
  encodeKey : K → Bytes
  compress : V → Bytes
  decompress : Bytes → Except DatabaseError V

/-- `DbTxMut::put::<T>`: stage `(encode k, compress v)` into the batch. -/
def typedPut {K V : Type} (c : TableCodec K V) (b : Batch) (cf : Nat) (k : K) (v : V) :
    Batch :=
  txPut b cf (c.encodeKey k) (c.compress v)

/-- `DbTx::get::<T>`: point-read the engine under `encode k` and decompress
the stored bytes. -/
def typedGet {K V : Type} (c : TableCodec K V) (eng : Engine) (cf : Nat) (k : K) :
    Except DatabaseError (Option V) :=
  match txGet eng cf (c.encodeKey k) with
  | none => .ok none
  | some bs => (c.decompress bs).map some

/-!
State-root helper (`implementation/rocks/trie/helper.rs`).

Column-family ids for the three trie tables of the registry
(`tables/trie.rs`): `trie`, `account_trie`, `storage_trie`.
-/

def trieCF : Nat := 0

def accountTrieCF : Nat := 1

def storageTrieCF : Nat := 2

/-- `reth_trie::BranchNodeCompact` as the helper reads it: three 16-bit
masks, the child hashes, and an optional root hash. -/
structure BranchNodeCompact where
  stateMask : Nat
  treeMask : Nat
  hashMask : Nat
  hashes : List Bytes
  rootHash : Option Bytes
deriving DecidableEq

/-- `BranchNodeCompact::default()`: all masks zero, no hashes, no root. -/
def branchNodeDefault : BranchNodeCompact :=
  { stateMask := 0, treeMask := 0, hashMask := 0, hashes := [], rootHash := none }

/-- Big-endian bytes of a 16-bit mask (`u16::to_be_bytes`). -/
def be16 (n : Nat) : Bytes := [n / 256 % 256, n % 256]

/-- `encode_branch_node_to_rlp` in `helper.rs`: masks, hash count, hashes,
then a 1-byte optional-root flag followed by the root hash when present. -/
def encodeBranchNodeToRlp (n : BranchNodeCompact) : Bytes :=
  be16 n.stateMask ++ be16 n.treeMask ++ be16 n.hashMask ++ [n.hashes.length % 256]
    ++ n.hashes.flatten
    ++ (match n.rootHash with
        | some h => 1 :: h
        | none => [0])

/-- The external primitives the helper calls: Keccak-256 and the
`reth_codecs` compact encoders for branch nodes and stored nibbles.  They
are opaque to this crate, so the model takes them as parameters. -/
structure ExtFns where
  keccak : Bytes → Bytes
  compressBranch : BranchNodeCompact → Bytes
  compactNibbles : Bytes → Bytes

/-- `reth_trie::updates::TrieUpdates` as consumed by the helper: updated
account-trie nodes keyed by nibble path, and per-account storage-trie
nodes. -/
structure TrieUpdates where
  accountNodes : List (Bytes × BranchNodeCompact)
  storageTries : List (Bytes × List (Bytes × BranchNodeCompact))

/-- `commit_trie_updates` in `helper.rs`: stage every updated account node
into `account_trie` (and by hash into `trie`), then every storage node
into `storage_trie`, all through `DbTxMut::put` on the write transaction's
batch. -/
def commitTrieUpdates (fns : ExtFns) (b : Batch) (u : TrieUpdates) : Batch :=
  let b1 := u.accountNodes.foldl
    (fun acc p =>
      let rlp := encodeBranchNodeToRlp p.2
      txPut (txPut acc accountTrieCF p.1 (fns.compressBranch p.2)) trieCF
        (fns.keccak rlp) rlp)
    b
  u.storageTries.foldl
    (fun acc q =>
      q.2.foldl
        (fun acc2 p =>
          let nodeHash := fns.keccak (encodeBranchNodeToRlp p.2)
          txPut acc2 storageTrieCF q.1 (fns.compactNibbles p.1 ++ nodeHash))
        acc)
    b1

/-- The canonical empty-trie root: Keccak-256 of the RLP-encoded empty
string `0x80`, the constant the repository's own test compares against. -/
def emptyTrieRoot : Bytes :=
  [0x56, 0xe8, 0x1f, 0x17, 0x1b, 0xcc, 0x55, 0xa6, 0xff, 0x83, 0x45, 0xe6, 0x92, 0xc0,
   0xf8, 0x6e, 0x5b, 0x48, 0xe0, 0x1b, 0x99, 0x6c, 0xad, 0xc0, 0x01, 0x62, 0x2f, 0xb5,
   0xe3, 0x63, 0xb4, 0x21]

/-- Modelled from the spec: `reth_trie::StateRoot::root_with_updates` is
repository code outside `src/`; per the spec, on an empty snapshot with an
empty post-state diff it returns the canonical empty-trie root and no
branch-node updates. -/
def emptyDiffRootUpdates : Bytes × TrieUpdates :=
  (emptyTrieRoot, { accountNodes := [], storageTries := [] })

/-- `calculate_state_root_with_updates` in `helper.rs`, instantiated at an
empty post-state diff: compute root and updates, stage the updates, then
- because `entries::<AccountTrieTable>()` iterates the ENGINE and the
staged batch is not yet committed - stage a "minimal root node"
(`BranchNodeCompact::default()` at the empty nibble path, plus its
by-hash entry) whenever the engine's `account_trie` column family is
empty.  Returns the root and the write transaction's batch afterwards. -/
def calcStateRootWithUpdatesEmptyDiff (fns : ExtFns) (eng : Engine) (b : Batch) :
    Bytes × Batch :=
  let root := emptyDiffRootUpdates.1
  let b1 := commitTrieUpdates fns b emptyDiffRootUpdates.2
  let b2 :=
    if txEntries eng accountTrieCF = 0 then
      let rlp := encodeBranchNodeToRlp branchNodeDefault
      txPut (txPut b1 accountTrieCF (trieNibblesEncode []) (fns.compressBranch branchNodeDefault))
        trieCF (fns.keccak rlp) rlp
    else b1
  (root, b2)

/-- Number of staged puts against one column family in a batch. -/
def countCfPuts (b : Batch) (cf : Nat) : Nat :=
  (b.filter (fun op =>
    match op with
    | .putOp c _ _ => decide (c = cf)
    | _ => false)).length

/-!
Concrete tables and engines used to witness or refute individual claims.
-/

/-- Two-entry table with a gap at key `[2]`, starting position its first
entry. -/
def tblSeekMiss : Tbl := [([1], [10]), ([3], [30])]

/-- Three-entry sorted table for seek witnesses. -/
def tblSeekW : Tbl := [([1], [10]), ([2], [20]), ([4], [40])]

/-- Three-entry sorted table for enumeration witnesses. -/
def tblEnum : Tbl := [([1], [10]), ([2], [20]), ([5], [50])]

/-- Two-entry sorted table for the fresh-cursor witness. -/
def tblFresh : Tbl := [([1], [10]), ([2], [20])]

/-- Engine holding one committed entry at key `[1]`. -/
def engDup : Engine := engPut [] trieCF [1] [9]

/-- Engine holding one committed entry at key `[4]`. -/
def engAbsent : Engine := engPut [] trieCF [4] [9]

/-- Engine whose `account_trie` column family stores the empty key (the
root nibble path), an ordinary key, and the 32-byte all-`0xFF` key. -/
def engClear : Engine :=
  engPut (engPut (engPut [] accountTrieCF [] [9]) accountTrieCF [5] [1])
    accountTrieCF clearEndKey [2]

/-- Identity byte codec, the shape of the `TrieTable` codec (`B256` keys
encode to their 32 raw bytes, `Vec<u8>` values compress to themselves). -/
def bytesCodec : TableCodec Bytes Bytes :=
  { encodeKey := fun b => b, compress := fun b => b, decompress := fun b => .ok b }

theorem keyLt_irrefl (a : Bytes) : keyLt a a = false := by
  induction a with
  | nil => rfl
  | cons x xs ih => simp [keyLt, ih]

theorem keyLt_asymm {a b : Bytes} (h : keyLt a b = true) : keyLt b a = false := by
  induction a generalizing b with
  | nil =>
    cases b with
    | nil => simp [keyLt] at h
    | cons y ys => simp [keyLt]
  | cons x xs ih =>
    cases b with
    | nil => simp [keyLt] at h
    | cons y ys =>
      by_cases hxy : x < y
      · simp [keyLt, hxy, Nat.lt_asymm hxy, Nat.ne_of_gt hxy]
      · by_cases hyx : y < x
        · simp [keyLt, hxy, hyx] at h
        · have hxe : ¬ y < x := hyx
          simp only [keyLt, if_neg hxy, if_neg hyx] at h
          simp [keyLt, hxy, hyx, ih h]

theorem keyLt_trans {a b c : Bytes} (h1 : keyLt a b = true) (h2 : keyLt b c = true) :
    keyLt a c = true := by
  induction a generalizing b c with
  | nil =>
    cases c with
    | nil =>
      cases b with
      | nil => simp [keyLt] at h1
      | cons y ys => simp [keyLt] at h2
    | cons z zs => simp [keyLt]
  | cons x xs ih =>
    cases b with
    | nil => simp [keyLt] at h1
    | cons y ys =>
      cases c with
      | nil => simp [keyLt] at h2
      | cons z zs =>
        by_cases hxy : x < y
        · by_cases hyz : y < z
          · simp [keyLt, Nat.lt_trans hxy hyz]
          · by_cases hzy : z < y
            · simp [keyLt, hxy, hyz, hzy] at h2
            · have : y = z := Nat.le_antisymm (Nat.le_of_not_lt hzy) (Nat.le_of_not_lt hyz)
              subst this
              simp [keyLt, hxy]
        · by_cases hyx : y < x
          · simp [keyLt, hxy, hyx] at h1
          · have hxey : x = y := Nat.le_antisymm (Nat.le_of_not_lt hyx) (Nat.le_of_not_lt hxy)
            subst hxey
            simp only [keyLt, if_neg hxy, if_neg hyx] at h1
            by_cases hxz : x < z
            · simp [keyLt, hxz]
            · by_cases hzx : z < x
              · simp [keyLt, hxz, hzx] at h2
              · have hxez : x = z := Nat.le_antisymm (Nat.le_of_not_lt hzx) (Nat.le_of_not_lt hxz)
                subst hxez
                simp only [keyLt, if_neg hxz, if_neg hzx] at h2 ⊢
                exact ih h1 h2

theorem keyLt_eq_of_not_lt {a b : Bytes} (h1 : keyLt a b = false) (h2 : keyLt b a = false) :
    a = b := by
  induction a generalizing b with
  | nil =>
    cases b with
    | nil => rfl
    | cons y ys => simp [keyLt] at h1
  | cons x xs ih =>
    cases b with
    | nil => simp [keyLt] at h2
    | cons y ys =>
      by_cases hxy : x < y
      · simp [keyLt, hxy] at h1
      · by_cases hyx : y < x
        · simp [keyLt, hyx, Nat.lt_asymm hyx, Nat.ne_of_gt hyx] at h2
        · have hxey : x = y := Nat.le_antisymm (Nat.le_of_not_lt hyx) (Nat.le_of_not_lt hxy)
          subst hxey
          simp only [keyLt, if_neg hxy, if_neg hyx] at h1 h2
          rw [ih h1 h2]

theorem keyLt_ne {a b : Bytes} (h : keyLt a b = true) : a ≠ b := by
  intro he
  subst he
  rw [keyLt_irrefl] at h
  exact Bool.noConfusion h

theorem tblSorted_tail {e : Entry} {t : Tbl} (h : tblSorted (e :: t) = true) :
    tblSorted t = true := by
  cases t with
  | nil => rfl
  | cons f r =>
    simp only [tblSorted, Bool.and_eq_true] at h
    exact h.2

theorem tblSorted_head_lt {e : Entry} {t : Tbl} (h : tblSorted (e :: t) = true) :
    ∀ f ∈ t, keyLt e.1 f.1 = true := by
  induction t generalizing e with
  | nil => intro f hf; cases hf
  | cons g r ih =>
    intro f hf
    simp only [tblSorted, Bool.and_eq_true] at h
    rcases List.mem_cons.mp hf with rfl | hfr
    · exact h.1
    · exact keyLt_trans h.1 (ih h.2 f hfr)

theorem tblSorted_lt_of_getElem? {t : Tbl} (h : tblSorted t = true) {i j : Nat}
    (hij : i < j) {e f : Entry} (he : t[i]? = some e) (hf : t[j]? = some f) :
    keyLt e.1 f.1 = true := by
  induction t generalizing i j with
  | nil => simp at he
  | cons a r ih =>
    cases i with
    | zero =>
      simp only [List.getElem?_cons_zero, Option.some.injEq] at he
      subst he
      cases j with
      | zero => omega
      | succ j' =>
        simp only [List.getElem?_cons_succ] at hf
        have hfr : f ∈ r := List.getElem?_mem hf
        exact tblSorted_head_lt h f hfr
    | succ i' =>
      cases j with
      | zero => omega
      | succ j' =>
        simp only [List.getElem?_cons_succ] at he hf
        exact ih (tblSorted_tail h) (Nat.lt_of_succ_lt_succ hij) he hf

theorem lookupTbl_eq_none_of_ne {t : Tbl} {k : Bytes} (h : ∀ f ∈ t, f.1 ≠ k) :
    lookupTbl t k = none := by
  induction t with
  | nil => rfl
  | cons e r ih =>
    have hek : e.1 ≠ k := h e (List.mem_cons_self e r)
    simp only [lookupTbl, if_neg hek]
    exact ih (fun f hf => h f (List.mem_cons_of_mem e hf))

/-- If the first `i` elements satisfy `p` and the `i`-th does not (when it
exists), then `dropWhile p` drops exactly the first `i` elements. -/
theorem dropWhile_eq_drop_of_getElem? {α : Type} (p : α → Bool) (l : List α) (i : Nat)
    (h1 : ∀ j, j < i → ∀ x, l[j]? = some x → p x = true)
    (h2 : ∀ x, l[i]? = some x → p x = false) :
    l.dropWhile p = l.drop i := by
  induction i generalizing l with
  | zero =>
    cases l with
    | nil => rfl
    | cons a r =>
      have ha : p a = false := h2 a (by simp)
      simp [List.dropWhile_cons, ha]
  | succ i' ih =>
    cases l with
    | nil => rfl
    | cons a r =>
      have ha : p a = true := h1 0 (Nat.succ_pos i') a (by simp)
      simp only [List.dropWhile_cons, ha, if_pos rfl, List.drop_succ_cons]
      exact ih r (fun j hj x hx => h1 (j + 1) (Nat.succ_lt_succ hj) x (by simpa using hx))
        (fun x hx => h2 x (by simpa using hx))

/-- If the first `i` elements satisfy `p` and the `i`-th does not (when it
exists), then `takeWhile p` keeps exactly the first `i` elements. -/
theorem takeWhile_eq_take_of_getElem? {α : Type} (p : α → Bool) (l : List α) (i : Nat)
    (h1 : ∀ j, j < i → ∀ x, l[j]? = some x → p x = true)
    (h2 : ∀ x, l[i]? = some x → p x = false) :
    l.takeWhile p = l.take i := by
  induction i generalizing l with
  | zero =>
    cases l with
    | nil => rfl
    | cons a r =>
      have ha : p a = false := h2 a (by simp)
      simp [List.takeWhile_cons, ha]
  | succ i' ih =>
    cases l with
    | nil => rfl
    | cons a r =>
      have ha : p a = true := h1 0 (Nat.succ_pos i') a (by simp)
      simp only [List.takeWhile_cons, ha, if_true, List.take_succ_cons, List.cons.injEq,
        true_and]
      exact ih r (fun j hj x hx => h1 (j + 1) (Nat.succ_lt_succ hj) x (by simpa using hx))
        (fun x hx => h2 x (by simpa using hx))

theorem cNext_step {t : Tbl} (h : tblSorted t = true) {i : Nat} {e : Entry}
    (he : t[i]? = some e) : cNext t (some e) = t[i + 1]? := by
  have hdrop : t.dropWhile (fun f => keyLt f.1 e.1) = t.drop i := by
    apply dropWhile_eq_drop_of_getElem?
    · intro j hj x hx
      exact tblSorted_lt_of_getElem? h hj hx he
    · intro x hx
      have hxe : x = e := by
        rw [hx] at he
        exact (Option.some.injEq _ _).mp he
      subst hxe
      exact keyLt_irrefl x.1
  simp only [cNext, hdrop, List.drop_drop, List.head?_drop]

theorem cPrev_step {t : Tbl} (h : tblSorted t = true) {i : Nat} {e : Entry}
    (he : t[i]? = some e) :
    cPrev t (some e) = if i = 0 then none else t[i - 1]? := by
  have hi : i < t.length := by
    by_contra hge
    rw [List.getElem?_eq_none (Nat.le_of_not_lt hge)] at he
    exact Option.noConfusion he
  have htake : t.takeWhile (fun f => !keyLt e.1 f.1) = t.take (i + 1) := by
    apply takeWhile_eq_take_of_getElem?
    · intro j hj x hx
      rcases Nat.lt_or_ge j i with hji | hji
      · have : keyLt x.1 e.1 = true := tblSorted_lt_of_getElem? h hji hx he
        simp [keyLt_asymm this]
      · have hje : j = i := Nat.le_antisymm (Nat.lt_succ_iff.mp hj) hji
        subst hje
        have hxe : x = e := by
          rw [hx] at he
          exact (Option.some.injEq _ _).mp he
        subst hxe
        simp [keyLt_irrefl]
    · intro x hx
      have : keyLt e.1 x.1 = true := tblSorted_lt_of_getElem? h (Nat.lt_succ_self i) he hx
      simp [this]
  have hlen : (t.take (i + 1)).length = i + 1 := by
    rw [List.length_take]
    omega
  simp only [cPrev, htake]
  cases i with
  | zero =>
    rw [List.head?_drop]
    have hle1 : (t.take (0 + 1)).reverse.length ≤ 1 := by
      rw [List.length_reverse, hlen]
    rw [List.getElem?_eq_none hle1]
    simp
  | succ i' =>
    rw [List.head?_drop]
    have h1len : 1 < (t.take (i' + 1 + 1)).length := by
      rw [hlen]
      omega
    rw [List.getElem?_reverse h1len, hlen]
    have h2 : i' + 1 + 1 - 1 - 1 = i' := by omega
    rw [h2, List.getElem?_take, if_pos (by omega), if_neg (Nat.succ_ne_zero i')]
    simp

theorem forwardTrace_spec {t : Tbl} (h : tblSorted t = true) :
    ∀ i, i ≤ t.length → forwardTrace t i = t[i]? := by
  intro i
  induction i with
  | zero =>
    intro _
    simp [forwardTrace, cFirst, List.head?_eq_getElem?]
  | succ i' ih =>
    intro hle
    have hi' : i' < t.length := Nat.lt_of_succ_le hle
    have hprev : forwardTrace t i' = t[i']? := ih (Nat.le_of_lt hi')
    obtain ⟨e, he⟩ : ∃ e, t[i']? = some e := by
      rw [List.getElem?_eq_getElem hi']
      exact ⟨_, rfl⟩
    rw [forwardTrace, hprev, he, cNext_step h he]

theorem backwardTrace_spec {t : Tbl} (h : tblSorted t = true) :
    ∀ i, i ≤ t.length → backwardTrace t i = t.reverse[i]? := by
  intro i
  induction i with
  | zero =>
    intro _
    simp [backwardTrace, cLast, List.getLast?_eq_head?_reverse, List.head?_eq_getElem?]
  | succ i' ih =>
    intro hle
    have hi' : i' < t.length := Nat.lt_of_succ_le hle
    have hprev : backwardTrace t i' = t.reverse[i']? := ih (Nat.le_of_lt hi')
    have hrev : t.reverse[i']? = t[t.length - 1 - i']? := List.getElem?_reverse hi'
    obtain ⟨e, he⟩ : ∃ e, t[t.length - 1 - i']? = some e := by
      rw [List.getElem?_eq_getElem (by omega)]
      exact ⟨_, rfl⟩
    rw [backwardTrace, hprev, hrev, he, cPrev_step h he]
    rcases Nat.lt_or_ge (i' + 1) t.length with hlt | hge
    · have hne : ¬ (t.length - 1 - i' = 0) := by omega
      rw [if_neg hne]
      rw [List.getElem?_reverse hlt]
      have : t.length - 1 - (i' + 1) = t.length - 1 - i' - 1 := by omega
      rw [this]
    · have heq : i' + 1 = t.length := Nat.le_antisymm hle hge
      have hz : t.length - 1 - i' = 0 := by omega
      rw [if_pos hz]
      symm
      apply List.getElem?_eq_none
      rw [List.length_reverse]
      omega

theorem seekGE_mem_ge {t : Tbl} {k : Bytes} {e : Entry} (h : seekGE t k = some e) :
    e ∈ t ∧ keyLt e.1 k = false := by
  induction t with
  | nil => simp [seekGE] at h
  | cons a r ih =>
    by_cases ha : keyLt a.1 k = true
    · simp only [seekGE, List.dropWhile_cons, ha, if_pos rfl] at h
      have := ih h
      exact ⟨List.mem_cons_of_mem a this.1, this.2⟩
    · have ha' : keyLt a.1 k = false := Bool.eq_false_iff.mpr ha
      simp only [seekGE, List.dropWhile_cons, ha', Bool.false_eq_true, if_false,
        List.head?_cons, Option.some.injEq] at h
      subst h
      exact ⟨List.mem_cons_self a r, ha'⟩

theorem seekGE_least {t : Tbl} (hs : tblSorted t = true) {k : Bytes} {e : Entry}
    (h : seekGE t k = some e) :
    ∀ f ∈ t, keyLt f.1 k = false → keyLt f.1 e.1 = false := by
  induction t with
  | nil => simp [seekGE] at h
  | cons a r ih =>
    intro f hf hfk
    by_cases ha : keyLt a.1 k = true
    · simp only [seekGE, List.dropWhile_cons, ha, if_pos rfl] at h
      rcases List.mem_cons.mp hf with rfl | hfr
      · rw [ha] at hfk
        exact Bool.noConfusion hfk
      · exact ih (tblSorted_tail hs) h f hfr hfk
    · have ha' : keyLt a.1 k = false := Bool.eq_false_iff.mpr ha
      simp only [seekGE, List.dropWhile_cons, ha', Bool.false_eq_true, if_false,
        List.head?_cons, Option.some.injEq] at h
      subst h
      rcases List.mem_cons.mp hf with rfl | hfr
      · exact keyLt_irrefl f.1
      · exact keyLt_asymm (tblSorted_head_lt hs f hfr)

theorem seekGE_none {t : Tbl} {k : Bytes} (h : seekGE t k = none) :
    ∀ f ∈ t, keyLt f.1 k = true := by
  have hnil : t.dropWhile (fun e => keyLt e.1 k) = [] := by
    cases hd : t.dropWhile (fun e => keyLt e.1 k) with
    | nil => rfl
    | cons x xs =>
      rw [seekGE, hd] at h
      exact Option.noConfusion h
  intro f hf
  exact List.dropWhile_eq_nil_iff.mp hnil f hf

/-- On a sorted column family, the output of `seek_exact` is exactly the point
lookup of `k` paired with `k` itself. -/
theorem cSeekExact_fst {t : Tbl} (hs : tblSorted t = true) (k : Bytes) :
    (cSeekExact t k).1 = (lookupTbl t k).map (fun v => (k, v)) := by
  induction t with
  | nil => rfl
  | cons a r ih =>
    by_cases ha : keyLt a.1 k = true
    · have hak : a.1 ≠ k := keyLt_ne ha
      have h1 : (cSeekExact (a :: r) k).1 = (cSeekExact r k).1 := by
        simp [cSeekExact, seekGE, List.dropWhile_cons, ha]
      rw [h1, lookupTbl, if_neg hak]
      exact ih (tblSorted_tail hs)
    · have ha' : keyLt a.1 k = false := Bool.eq_false_iff.mpr ha
      have hseek : seekGE (a :: r) k = some a := by
        simp [seekGE, List.dropWhile_cons, ha']
      by_cases hak : a.1 = k
      · have hpair : (k, a.2) = a := by
          rw [← hak]
        simp [cSeekExact, hseek, hak, lookupTbl, hpair]
      · have hka : keyLt k a.1 = true := by
          cases hk : keyLt k a.1 with
          | true => rfl
          | false => exact absurd (keyLt_eq_of_not_lt ha' hk) hak
        have hrk : lookupTbl r k = none := by
          apply lookupTbl_eq_none_of_ne
          intro f hf
          have haf : keyLt a.1 f.1 = true := tblSorted_head_lt hs f hf
          exact fun hfk => keyLt_ne (keyLt_trans hka haf) hfk.symm
        simp [cSeekExact, hseek, hak, lookupTbl, hrk]

theorem engTbl_engSet_self (eng : Engine) (cf : Nat) (t : Tbl) :
    engTbl (engSet eng cf t) cf = t := by
  induction eng with
  | nil => simp [engSet, engTbl]
  | cons p r ih =>
    obtain ⟨c, u⟩ := p
    by_cases hc : c = cf
    · subst hc
      simp [engSet, engTbl]
    · simp [engSet, engTbl, hc, ih]

theorem lookupTbl_insertEntry_self (t : Tbl) (k v : Bytes) :
    lookupTbl (insertEntry t k v) k = some v := by
  induction t with
  | nil => simp [insertEntry, lookupTbl]
  | cons e r ih =>
    by_cases h1 : keyLt k e.1 = true
    · simp [insertEntry, h1, lookupTbl]
    · by_cases h2 : k = e.1
      · simp [insertEntry, h1, h2, lookupTbl, keyLt_irrefl]
      · have hne : e.1 ≠ k := fun he => h2 he.symm
        simp [insertEntry, h1, h2, lookupTbl, hne, ih]

theorem lookupTbl_deleteKey_self (t : Tbl) (k : Bytes) :
    lookupTbl (deleteKey t k) k = none := by
  induction t with
  | nil => rfl
  | cons e r ih =>
    by_cases h : e.1 = k
    · simpa [deleteKey, List.filter_cons, h] using ih
    · simp only [deleteKey, List.filter_cons] at ih ⊢
      simp [lookupTbl, h, ih]

theorem txGet_engPut_self (eng : Engine) (cf : Nat) (k v : Bytes) :
    txGet (engPut eng cf k v) cf k = some v := by
  rw [txGet, engPut, engTbl_engSet_self]
  exact lookupTbl_insertEntry_self _ k v

theorem txGet_engDel_self (eng : Engine) (cf : Nat) (k : Bytes) :
    txGet (engDel eng cf k) cf k = none := by
  rw [txGet, engDel, engTbl_engSet_self]
  exact lookupTbl_deleteKey_self _ k

theorem findDelim_append_delim {l1 l2 : Bytes} (h : 255 ∉ l1) :
    findDelim (l1 ++ 255 :: l2) = some l1.length := by
  induction l1 with
  | nil => simp [findDelim]
  | cons b r ih =>
    have hb : b ≠ 255 := fun hb => h (hb ▸ List.mem_cons_self b r)
    have hr : 255 ∉ r := fun hr => h (List.mem_cons_of_mem b hr)
    simp [findDelim, hb, ih hr]

/-- Claim C1, counterexample: a write cursor obtained from a write
transaction over an empty engine upserts `[1] ↦ [7]`; without any commit,
a subsequently opened transaction already reads `some [7]`, although the
claim requires the engine to be unchanged (`none`) until commit. -/
theorem c1_counterexample :
    txGet (cursorUpsert [] trieCF [1] [7]) trieCF [1] = some [7] ∧
    txGet (cursorUpsert [] trieCF [1] [7]) trieCF [1] ≠ none ∧
    txGet ([] : Engine) trieCF [1] = none := by
  decide

/-- Claim C1, amended: the mutating write-cursor operations (`upsert`,
`insert`, `append`, `delete_current`) apply directly to the engine and are
immediately visible to subsequently opened transactions; dropping the
write transaction without commit (committing an empty batch) does not
discard them.  Only transaction-level `put`/`delete`/`clear` stage into
the batch. -/
theorem c1_cursor_writes_hit_engine (eng : Engine) (cf : Nat) (k v : Bytes) (e : Entry) :
    txGet (cursorUpsert eng cf k v) cf k = some v ∧
    txGet (cursorAppend eng cf k v) cf k = some v ∧
    txGet (cursorDeleteCurrent eng cf (some e)) cf e.1 = none ∧
    txGet (txCommit (cursorUpsert eng cf k v) []) cf k = some v := by
  exact ⟨txGet_engPut_self eng cf k v, txGet_engPut_self eng cf k v,
    txGet_engDel_self eng cf e.1, txGet_engPut_self eng cf k v⟩

/-- Claim C2: after `tx_mut(); put<T>(k, v); commit`, a `get<T>(k)` through
a subsequently opened transaction returns `Some(v)`, for any table codec
whose value compression round-trips. -/
theorem c2_put_commit_get (K V : Type) (c : TableCodec K V) (eng : Engine) (cf : Nat)
    (k : K) (v : V) (hrt : c.decompress (c.compress v) = .ok v) :
    typedGet c (txCommit eng (typedPut c [] cf k v)) cf k = .ok (some v) := by
  have h1 : txGet (txCommit eng (typedPut c [] cf k v)) cf (c.encodeKey k)
      = some (c.compress v) :=
    txGet_engPut_self eng cf (c.encodeKey k) (c.compress v)
  simp [typedGet, h1, hrt, Except.map]

/-- Claim C2, witness at the identity byte codec. -/
theorem c2_put_commit_get_witness :
    typedGet bytesCodec (txCommit [] (typedPut bytesCodec [] trieCF [3] [9])) trieCF [3]
      = .ok (some [9]) :=
  c2_put_commit_get Bytes Bytes bytesCodec [] trieCF [3] [9] rfl

/-- Claim C3, counterexample: on the table `{[1] ↦ [10], [3] ↦ [30]}` a
cursor positioned at its first entry performs `seek_exact([2])`; the call
misses (returns `none`) but the cursor position moves to `([3], [30])`
instead of staying at `([1], [10])`. -/
theorem c3_counterexample :
    cFirst tblSeekMiss = some ([1], [10]) ∧
    (cSeekExact tblSeekMiss [2]).1 = none ∧
    (cSeekExact tblSeekMiss [2]).2 = some ([3], [30]) ∧
    (some (([3], [30]) : Entry)) ≠ some (([1], [10]) : Entry) := by
  decide

/-- Claim C3, amended: `seek(k)` returns the least stored key `≥ k` (or
`none`), `seek_exact(k)` returns `Some(k, v)` exactly when `k` is stored,
and on a miss the position moves to the least stored key `≥ k`
(unpositioned when none exists) rather than staying unchanged. -/
theorem c3_seek_semantics (t : Tbl) (k : Bytes) (hs : tblSorted t = true) :
    (∀ e, cSeek t k = some e →
      e ∈ t ∧ keyLt e.1 k = false ∧ ∀ f ∈ t, keyLt f.1 k = false → keyLt f.1 e.1 = false) ∧
    (cSeek t k = none → ∀ f ∈ t, keyLt f.1 k = true) ∧
    (cSeekExact t k).1 = (lookupTbl t k).map (fun v => (k, v)) ∧
    (cSeekExact t k).2 = cSeek t k := by
  refine ⟨?_, ?_, cSeekExact_fst hs k, rfl⟩
  · intro e he
    exact ⟨(seekGE_mem_ge he).1, (seekGE_mem_ge he).2, seekGE_least hs he⟩
  · exact seekGE_none

/-- Claim C3, witness on a concrete sorted table. -/
theorem c3_seek_semantics_witness :
    (cSeekExact tblSeekW [3]).1 = (lookupTbl tblSeekW [3]).map (fun v => ([3], v)) ∧
    (cSeekExact tblSeekW [3]).2 = cSeek tblSeekW [3] :=
  ⟨(c3_seek_semantics tblSeekW [3] (by decide)).2.2.1,
   (c3_seek_semantics tblSeekW [3] (by decide)).2.2.2⟩

/-- Claim C4: on a fixed sorted snapshot, `first` followed by repeated
`next` yields exactly the stored entries in ascending order and then
`none`; `last` followed by repeated `prev` yields them in descending
order; an unpositioned `next` behaves as `first` and an unpositioned
`prev` as `last`. -/
theorem c4_cursor_enumeration (t : Tbl) (hs : tblSorted t = true) :
    (∀ i, i ≤ t.length → forwardTrace t i = t[i]?) ∧
    (∀ i, i ≤ t.length → backwardTrace t i = t.reverse[i]?) ∧
    cNext t none = cFirst t ∧
    cPrev t none = cLast t :=
  ⟨forwardTrace_spec hs, backwardTrace_spec hs, rfl, rfl⟩

/-- Claim C4, witness on a three-entry table. -/
theorem c4_cursor_enumeration_witness :
    forwardTrace tblEnum 1 = tblEnum[1]? ∧
    forwardTrace tblEnum 3 = none ∧
    backwardTrace tblEnum 1 = tblEnum.reverse[1]? := by
  refine ⟨(c4_cursor_enumeration tblEnum (by decide)).1 1 (by decide), ?_,
    (c4_cursor_enumeration tblEnum (by decide)).2.1 1 (by decide)⟩
  have h := (c4_cursor_enumeration tblEnum (by decide)).1 3 (by decide)
  rw [h]
  decide

/-- Claim C5: with an empty post-state diff on an empty database,
`calculate_state_root_with_updates` does return the canonical empty-trie
root, but it also stages one minimal root branch node into the
`account_trie` table (and one by-hash entry), because the
`entries::<AccountTrieTable>() == 0` guard reads the engine rather than
the uncommitted batch and never checks that the diff is non-empty; the
claimed "writes zero branch nodes" fails. -/
theorem c5_empty_diff_writes_minimal_root (fns : ExtFns) :
    (calcStateRootWithUpdatesEmptyDiff fns [] []).1 = emptyTrieRoot ∧
    countCfPuts (calcStateRootWithUpdatesEmptyDiff fns [] []).2 accountTrieCF = 1 ∧
    txEntries (txCommit [] (calcStateRootWithUpdatesEmptyDiff fns [] []).2) accountTrieCF
      = 1 := by
  refine ⟨rfl, rfl, rfl⟩

/-- Claim C6, counterexample: on an engine already storing key `[1]`, the
write cursor's `insert([1], [7])` fails with
`DatabaseError::Other("Key already exists")`, which is not the claimed
`DatabaseError::KeyExists` variant. -/
theorem c6_counterexample :
    cursorInsertOp engDup trieCF [1] [7]
      = (.error (.Other "Key already exists"), engDup) ∧
    DatabaseError.Other "Key already exists" ≠ DatabaseError.KeyExists := by
  exact ⟨rfl, fun h => DatabaseError.noConfusion h⟩

/-- Claim C6, amended: `insert(k, v)` on a stored key fails with
`DatabaseError::Other("Key already exists")` and leaves the engine (hence
the value stored at `k`) unchanged; on an absent key it writes `v` at `k`
(directly to the engine). -/
theorem c6_insert_semantics (eng : Engine) (cf : Nat) (k v : Bytes)
    (hs : tblSorted (engTbl eng cf) = true) :
    (∀ w, txGet eng cf k = some w →
      cursorInsertOp eng cf k v = (.error (.Other "Key already exists"), eng)) ∧
    (txGet eng cf k = none →
      cursorInsertOp eng cf k v = (.ok (), engPut eng cf k v) ∧
      txGet (cursorInsertOp eng cf k v).2 cf k = some v) := by
  constructor
  · intro w hw
    have h1 : (cSeekExact (engTbl eng cf) k).1 = some (k, w) := by
      rw [cSeekExact_fst hs]
      rw [txGet] at hw
      rw [hw]
      rfl
    simp [cursorInsertOp, h1]
  · intro hnone
    have h1 : (cSeekExact (engTbl eng cf) k).1 = none := by
      rw [cSeekExact_fst hs]
      rw [txGet] at hnone
      rw [hnone]
      rfl
    have h2 : cursorInsertOp eng cf k v = (.ok (), engPut eng cf k v) := by
      simp [cursorInsertOp, h1, cursorUpsert]
    refine ⟨h2, ?_⟩
    rw [h2]
    exact txGet_engPut_self eng cf k v

/-- Claim C6, witness: inserting an absent key succeeds and stores it. -/
theorem c6_insert_semantics_witness :
    cursorInsertOp engAbsent trieCF [2] [7] = (.ok (), engPut engAbsent trieCF [2] [7]) :=
  ((c6_insert_semantics engAbsent trieCF [2] [7] (by decide)).2 (by decide)).1

/-- Claim C7: `clear` stages a range delete from `[0x00]` (exclusive of
keys sorting before it, such as the empty key) to `0xFF × 32` (exclusive,
like every RocksDB range delete).  After `clear` and commit, the ordinary
key `[5]` is gone, but the empty key - the account-trie root nibble
path - and the 32-byte all-`0xFF` key are still readable, refuting the
claim that every previously stored key reads `None`. -/
theorem c7_clear_misses_edge_keys :
    txGet (txCommit engClear (txClear [] accountTrieCF)) accountTrieCF [5] = none ∧
    txGet (txCommit engClear (txClear [] accountTrieCF)) accountTrieCF [] = some [9] ∧
    txGet (txCommit engClear (txClear [] accountTrieCF)) accountTrieCF clearEndKey
      = some [2] := by
  decide

/-- Claim C8: for any dup-sort key whose encoding contains no `0xFF` byte
and any sub-key, `create_composite_key` is exactly
`encode(k) ∥ 0xFF ∥ encode(s)`, and `split_composite_key` splits at the
first `0xFF` and recovers `(k, s)` whenever both codecs round-trip. -/
theorem c8_composite_key_roundtrip (K S : Type) (encodeK : K → Bytes) (encodeS : S → Bytes)
    (decodeK : Bytes → Except DatabaseError K) (decodeS : Bytes → Except DatabaseError S)
    (k : K) (s : S) (hff : 255 ∉ encodeK k)
    (hk : decodeK (encodeK k) = .ok k) (hsu : decodeS (encodeS s) = .ok s) :
    createCompositeKey encodeK encodeS k s = encodeK k ++ 255 :: encodeS s ∧
    splitCompositeKey decodeK decodeS (createCompositeKey encodeK encodeS k s)
      = .ok (k, s) := by
  refine ⟨rfl, ?_⟩
  have ht : (encodeK k ++ 255 :: encodeS s).take (encodeK k).length = encodeK k :=
    List.take_left _ _
  have hd : (encodeK k ++ 255 :: encodeS s).drop ((encodeK k).length + 1) = encodeS s := by
    rw [← List.drop_drop, List.drop_left]
    rfl
  simp only [splitCompositeKey, createCompositeKey, findDelim_append_delim hff, ht, hd,
    hk, hsu]

/-- Claim C8, witness with identity codecs and a sub-key that itself
contains a `0xFF` byte. -/
theorem c8_composite_key_roundtrip_witness :
    createCompositeKey (fun b : Bytes => b) (fun b : Bytes => b) [1, 2] [3, 255, 4]
      = [1, 2] ++ 255 :: [3, 255, 4] ∧
    splitCompositeKey (fun b => (.ok b : Except DatabaseError Bytes))
      (fun b => (.ok b : Except DatabaseError Bytes))
      (createCompositeKey (fun b : Bytes => b) (fun b : Bytes => b) [1, 2] [3, 255, 4])
      = .ok ([1, 2], [3, 255, 4]) :=
  c8_composite_key_roundtrip Bytes Bytes (fun b => b) (fun b => b)
    (fun b => .ok b) (fun b => .ok b) [1, 2] [3, 255, 4] (by decide) rfl rfl

/-- Claim C9: the `TrieNibbles` codec stores one nibble per byte, so
`decode(encode(x)) = x` for every valid nibble path (each digit below 16,
length at most 64), and nibble-by-nibble lexicographic order coincides
with bytewise lexicographic order of the encodings. -/
theorem c9_trie_nibbles_codec (a b : Bytes)
    (_hlen : a.length ≤ 64) (ha : ∀ x ∈ a, x < 16) (_hb : ∀ x ∈ b, x < 16) :
    trieNibblesDecode (trieNibblesEncode a) = .ok a ∧
    keyLt a b = keyLt (trieNibblesEncode a) (trieNibblesEncode b) := by
  refine ⟨?_, rfl⟩
  have hfalse : a.any (fun x => decide (15 < x)) = false := by
    simp only [List.any_eq_false]
    intro x hx
    have hx16 : x < 16 := ha x hx
    simp only [decide_eq_true_eq]
    omega
  simp [trieNibblesDecode, trieNibblesEncode, hfalse]

/-- Claim C9, witness on concrete nibble paths. -/
theorem c9_trie_nibbles_codec_witness :
    trieNibblesDecode (trieNibblesEncode [0, 5, 15]) = .ok [0, 5, 15] ∧
    keyLt [0, 5, 15] [1] = keyLt (trieNibblesEncode [0, 5, 15]) (trieNibblesEncode [1]) :=
  c9_trie_nibbles_codec [0, 5, 15] [1] (by decide) (by decide) (by decide)

/-- Claim C10: cursor construction runs `reset_to_first`, so a fresh
cursor is positioned at the table's first entry, and on a table with at
least two entries the first `next` - issued without any prior positioning
call - returns the second entry, not the first. -/
theorem c10_fresh_cursor_next_skips_first (t : Tbl) (hs : tblSorted t = true)
    (hlen : 2 ≤ t.length) :
    cursorNew t = t[0]? ∧
    cNext t (cursorNew t) = t[1]? ∧
    t[1]? ≠ t[0]? := by
  obtain ⟨e0, he0⟩ : ∃ e, t[0]? = some e := by
    rw [List.getElem?_eq_getElem (by omega)]
    exact ⟨_, rfl⟩
  obtain ⟨e1, he1⟩ : ∃ e, t[1]? = some e := by
    rw [List.getElem?_eq_getElem (by omega)]
    exact ⟨_, rfl⟩
  have hnew : cursorNew t = t[0]? := by
    rw [cursorNew, List.head?_eq_getElem?]
  refine ⟨hnew, ?_, ?_⟩
  · rw [hnew, he0, cNext_step hs he0]
  · rw [he0, he1]
    intro h
    have he : e1 = e0 := (Option.some.injEq _ _).mp h
    have hlt : keyLt e0.1 e1.1 = true :=
      tblSorted_lt_of_getElem? hs (by omega) he0 he1
    exact keyLt_ne hlt (by rw [he])

/-- Claim C10, witness on a two-entry table. -/
theorem c10_fresh_cursor_next_skips_first_witness :
    cNext tblFresh (cursorNew tblFresh) = tblFresh[1]? ∧ tblFresh[1]? ≠ tblFresh[0]? :=
  ⟨(c10_fresh_cursor_next_skips_first tblFresh (by decide) (by decide)).2.1,
   (c10_fresh_cursor_next_skips_first tblFresh (by decide) (by decide)).2.2⟩

end RocksReth
